import Mathlib

/-!
# Verification of the `_gufuncs_cloop` kernels

Shallow embedding of the numeric kernels in
`src/rand_mfld_proj/gufuncs_cloop.c`: the squared-distance helper
`DOUBLE_dist`, the pair-wise and cross-wise distance-ratio kernels
`DOUBLE_pdist_ratio` and `DOUBLE_cdist_ratio`, matrix multiplication
`DOUBLE_matmul` and the vector norm `DOUBLE_norm`, together with a model of
the broadcasting outer-loop driver.

The C kernels operate on IEEE-754 doubles addressed through strided
buffers.  The embedding idealises a double value as either a finite exact
rational or one of the IEEE special values `+inf`, `-inf`, `nan`; finite
arithmetic is exact (no rounding), while division and the ordered
comparisons follow the IEEE rules for the special values (any comparison
involving `nan` is false, division of a nonzero finite by zero gives a
signed infinity, `0/0` gives `nan`).  A strided vector traversal of length
`L` is modelled as a Lean list of the `L` elements it visits, and a
two-dimensional operand as a list of rows.
-/

/-- An idealised IEEE-754 double: a finite exact rational, an infinity of
either sign, or `nan`. -/
inductive FP where
  | fin : ℚ → FP
  | inf : FP
  | neginf : FP
  | nan : FP
deriving DecidableEq, Repr

/-- IEEE `<` comparison: false whenever either operand is `nan`, otherwise
the order `-inf < finite < +inf` with finite values ordered exactly.  This
is the comparison used by the C expressions `ratio < dr_min` and
`ratio > dr_max` (the latter being `fpLt dr_max ratio`). -/
def fpLt : FP → FP → Bool
  | FP.nan, _ => false
  | _, FP.nan => false
  | FP.neginf, FP.neginf => false
  | FP.neginf, _ => true
  | FP.inf, _ => false
  | FP.fin _, FP.neginf => false
  | FP.fin a, FP.fin b => decide (a < b)
  | FP.fin _, FP.inf => true

/-- IEEE division on the idealised doubles: `nan` propagates, a nonzero
finite divided by zero gives a signed infinity, `0/0` and `inf/inf` give
`nan`, and a finite divided by an infinity gives zero.  (The model has a
single unsigned zero, so a zero divisor counts as `+0`.) -/
def fpDiv : FP → FP → FP
  | FP.nan, _ => FP.nan
  | _, FP.nan => FP.nan
  | FP.fin a, FP.fin b =>
      if b = 0 then
        (if a = 0 then FP.nan else if 0 < a then FP.inf else FP.neginf)
      else FP.fin (a / b)
  | FP.fin _, FP.inf => FP.fin 0
  | FP.fin _, FP.neginf => FP.fin 0
  | FP.inf, FP.fin b => if 0 ≤ b then FP.inf else FP.neginf
  | FP.inf, FP.inf => FP.nan
  | FP.inf, FP.neginf => FP.nan
  | FP.neginf, FP.fin b => if 0 ≤ b then FP.neginf else FP.inf
  | FP.neginf, FP.inf => FP.nan
  | FP.neginf, FP.neginf => FP.nan

/-- Model of `npy_sqrt` on the idealised doubles: `sqrt(+inf) = +inf`,
`sqrt` of a negative value (or of `-inf` or `nan`) is `nan`, and on
nonnegative finite values it is `Rat.sqrt`, which is exact on perfect
squares — in particular on `0` and `1`, the only finite values whose square
roots the kernels' specified behaviour depends on. -/
def fpSqrt : FP → FP
  | FP.nan => FP.nan
  | FP.inf => FP.inf
  | FP.neginf => FP.nan
  | FP.fin q => if q < 0 then FP.nan else FP.fin (Rat.sqrt q)

/-- `DOUBLE_dist` (gufuncs_cloop.c, lines 174-189): walks the two strided
vectors in lockstep and **adds** each squared coordinate difference into
the caller-supplied accumulator `dist`; the vectors are modelled by the
lists of elements the strided traversal visits. -/
def DOUBLE_dist : List ℚ → List ℚ → ℚ → ℚ
  | [], _, dist => dist
  | _, [], dist => dist
  | x :: X, y :: Y, dist => DOUBLE_dist X Y (dist + (x - y) * (x - y))

/-- The body of the `d2` loops of `DOUBLE_pdist_ratio` and
`DOUBLE_cdist_ratio`: zero-initialise the two accumulators, compute the
squared distances in numerator space and denominator space, and form their
ratio.  A point of the ratio kernels is modelled as the pair
(numerator-space row, denominator-space row). -/
def pairRatioOf (fr pt : List ℚ × List ℚ) : FP :=
  fpDiv (FP.fin (DOUBLE_dist fr.1 pt.1 0)) (FP.fin (DOUBLE_dist fr.2 pt.2 0))

/-- `if (ratio < dr_min) dr_min = ratio;` -/
def fpMinStep (m r : FP) : FP := if fpLt r m then r else m

/-- `if (ratio > dr_max) dr_max = ratio;` (IEEE `a > b` is `b < a`). -/
def fpMaxStep (m r : FP) : FP := if fpLt m r then r else m

/-- One iteration of the ratio-tracking state `(dr_min, dr_max)`. -/
def updateMinMax (acc : FP × FP) (r : FP) : FP × FP :=
  (fpMinStep acc.1 r, fpMaxStep acc.2 r)

/-- The inner (`d2`) loop shared textually by `DOUBLE_pdist_ratio` and
`DOUBLE_cdist_ratio`: fold the ratio of `fr` against each `to` point into
the running `(dr_min, dr_max)` state. -/
def ratioInnerLoop (fr : List ℚ × List ℚ) :
    List (List ℚ × List ℚ) → FP × FP → FP × FP
  | [], acc => acc
  | pt :: tos, acc => ratioInnerLoop fr tos (updateMinMax acc (pairRatioOf fr pt))

/-- The outer (`d1`) loop of `DOUBLE_pdist_ratio`: each point is paired
with the points after it (`d2` runs from `d1 + 1`). -/
def pdistOuterLoop : List (List ℚ × List ℚ) → FP × FP → FP × FP
  | [], acc => acc
  | fr :: rest, acc => pdistOuterLoop rest (ratioInnerLoop fr rest acc)

/-- The outer (`d1`) loop of `DOUBLE_cdist_ratio`: each from-point is
paired with every to-point (the to-pointer is rewound to `args[1]`/
`args[3]` at the start of every `d1` iteration). -/
def cdistOuterLoop (tos : List (List ℚ × List ℚ)) :
    List (List ℚ × List ℚ) → FP × FP → FP × FP
  | [], acc => acc
  | fr :: rest, acc => cdistOuterLoop tos rest (ratioInnerLoop fr tos acc)

/-- `DOUBLE_pdist_ratio` (gufuncs_cloop.c, lines 193-248), one batch
element: the numerator operand `args[0]` is the list `num` of
numerator-space rows, the denominator operand `args[1]` the list `den` of
denominator-space rows (the `d1`/`d2` indices address both operands in
lockstep, hence the zip).  `dr_min` starts at `d_inf`, `dr_max` at
`d_zero`; the first output receives `npy_sqrt(dr_min)`, the second
`npy_sqrt(dr_max)`. -/
def DOUBLE_pdist_ratio (num den : List (List ℚ)) : FP × FP :=
  let acc := pdistOuterLoop (num.zip den) (FP.inf, FP.fin 0)
  (fpSqrt acc.1, fpSqrt acc.2)

/-- `DOUBLE_cdist_ratio` (gufuncs_cloop.c, lines 252-316), one batch
element: operands `args[0]`/`args[2]` are the from-set rows (numerator /
denominator space), `args[1]`/`args[3]` the to-set rows; every from-point
is paired with every to-point, diagonal included. -/
def DOUBLE_cdist_ratio (numFr numTo denFr denTo : List (List ℚ)) : FP × FP :=
  let acc := cdistOuterLoop (numTo.zip denTo) (numFr.zip denFr) (FP.inf, FP.fin 0)
  (fpSqrt acc.1, fpSqrt acc.2)

/-- Entry `A[i][j]` of a row-major operand, with an arbitrary value (the C
code's behaviour is undefined there) outside the stored extent. -/
def entry (A : List (List ℚ)) (i j : Nat) : ℚ := (A.getD i []).getD j 0

/-- `DOUBLE_matmul` (gufuncs_cloop.c, lines 323-374), one batch element:
for every `m < M` and `p < P` the output cell is set to `d_zero` and then
accumulated with `X[m,n] * Y[n,p]` for `n = 0, …, N-1` in that order. -/
def DOUBLE_matmul (M N P : Nat) (X Y : List (List ℚ)) : List (List ℚ) :=
  (List.range M).map fun m =>
    (List.range P).map fun p =>
      (List.range N).foldl (fun z n => z + entry X m n * entry Y n p) 0

/-- `DOUBLE_norm` (gufuncs_cloop.c, lines 381-406), one batch element:
`normsq` starts at `d_zero`, accumulates the squares of the elements in
order, and the output is `npy_sqrt(normsq)`. -/
def DOUBLE_norm (X : List ℚ) : FP :=
  fpSqrt (FP.fin (X.foldl (fun a x => a + x * x) 0))

/-!
## Specification-side definitions

These follow the wording of the specification and of the claims; the
theorems below relate them to the kernel definitions above.
-/

/-- Squared Euclidean distance written as a mathematical sum of squared
coordinate differences. -/
def sqdistSum (X Y : List ℚ) : ℚ :=
  ((X.zip Y).map fun c => (c.1 - c.2) * (c.1 - c.2)).sum

/-- The distance ratio of the point pair `(i, j)`: squared distance of
rows `i`, `j` of `num` over squared distance of rows `i`, `j` of `den`. -/
def ratioAt (num den : List (List ℚ)) (i j : Nat) : FP :=
  fpDiv (FP.fin (sqdistSum (num.getD i []) (num.getD j [])))
        (FP.fin (sqdistSum (den.getD i []) (den.getD j [])))

/-- All index pairs `(i, j)` with `i < j < D`, in the iteration order of
the `d1`/`d2` loops of `DOUBLE_pdist_ratio`. -/
def indexPairs (D : Nat) : List (Nat × Nat) :=
  (List.range D).flatMap fun i => ((List.range D).drop (i + 1)).map fun j => (i, j)

/-- The list of distance ratios of all unordered point pairs `i < j`. -/
def ratioList (num den : List (List ℚ)) (D : Nat) : List FP :=
  (indexPairs D).map fun p => ratioAt num den p.1 p.2

/-- The element pairs `(l[i], l[j])` with `i < j`, in loop order. -/
def pdistPairs : List α → List (α × α)
  | [] => []
  | x :: xs => (xs.map fun y => (x, y)) ++ pdistPairs xs

/-- The full cross product of element pairs, from-major, in the loop order
of `DOUBLE_cdist_ratio`. -/
def allPairs (xs ys : List α) : List (α × α) :=
  xs.flatMap fun x => ys.map fun y => (x, y)

/-- The diagonal pairs `(l[i], l[i])`. -/
def diagPairs (l : List α) : List (α × α) := l.map fun x => (x, x)

/-- The `N × N` identity matrix as a row-major list of rows. -/
def identMat (N : Nat) : List (List ℚ) :=
  (List.range N).map fun i => (List.range N).map fun j => if i = j then 1 else 0

/-- Modelled from the spec: the broadcasting outer-loop driver (the
`INIT_OUTER_LOOP_N` / `BEGIN_OUTER_LOOP_N` / `END_OUTER_LOOP_N` macros
live in `gufunc_common.h`, which is not among the sources).  Per spec
§4.3 the driver enumerates the Cartesian product of the batch-axis index
space in row-major, last-axis-fastest order, exactly once each; this is
the list of batch index combinations it visits, in visit order. -/
def odometerVisits : List Nat → List (List Nat)
  | [] => [[]]
  | s :: rest => (List.range s).flatMap fun i => (odometerVisits rest).map fun idx => i :: idx

/-- Modelled from the spec: the driver invokes the kernel body once per
visited batch index combination, threading the machine state (which
contains the output buffers) through the kernel invocations; with an empty
visit list the state — in particular every output location — is returned
untouched. -/
def outerLoopDriver {σ : Type} (shape : List Nat) (kernel : List Nat → σ → σ) (s : σ) : σ :=
  (odometerVisits shape).foldl (fun st idx => kernel idx st) s

/-!
## Helper lemmas: the ratio-tracking step
-/

lemma fpLt_nan_right (a : FP) : fpLt a FP.nan = false := by cases a <;> rfl

lemma fpMinStep_nan (m : FP) : fpMinStep m FP.nan = m := by
  simp [fpMinStep, fpLt]

lemma fpMaxStep_nan (m : FP) : fpMaxStep m FP.nan = m := by
  simp [fpMaxStep, fpLt_nan_right]

lemma updateMinMax_nan (acc : FP × FP) : updateMinMax acc FP.nan = acc := by
  simp [updateMinMax, fpMinStep_nan, fpMaxStep_nan]

lemma fpMinStep_right_comm (b a₁ a₂ : FP) :
    fpMinStep (fpMinStep b a₁) a₂ = fpMinStep (fpMinStep b a₂) a₁ := by
  cases b <;> cases a₁ <;> cases a₂ <;>
    simp [fpMinStep, fpLt] <;>
    split_ifs <;> simp_all <;> linarith

lemma fpMaxStep_right_comm (b a₁ a₂ : FP) :
    fpMaxStep (fpMaxStep b a₁) a₂ = fpMaxStep (fpMaxStep b a₂) a₁ := by
  cases b <;> cases a₁ <;> cases a₂ <;>
    simp [fpMaxStep, fpLt] <;>
    split_ifs <;> simp_all <;> linarith

lemma updateMinMax_right_comm (b : FP × FP) (a₁ a₂ : FP) :
    updateMinMax (updateMinMax b a₁) a₂ = updateMinMax (updateMinMax b a₂) a₁ := by
  simp [updateMinMax, fpMinStep_right_comm, fpMaxStep_right_comm]

lemma fpMinStep_idem (m r : FP) : fpMinStep (fpMinStep m r) r = fpMinStep m r := by
  cases m <;> cases r <;>
    simp [fpMinStep, fpLt] <;>
    split_ifs <;> simp_all <;> linarith

lemma fpMaxStep_idem (m r : FP) : fpMaxStep (fpMaxStep m r) r = fpMaxStep m r := by
  cases m <;> cases r <;>
    simp [fpMaxStep, fpLt] <;>
    split_ifs <;> simp_all <;> linarith

lemma updateMinMax_idem (b : FP × FP) (r : FP) :
    updateMinMax (updateMinMax b r) r = updateMinMax b r := by
  simp [updateMinMax, fpMinStep_idem, fpMaxStep_idem]

/-!
## Helper lemmas: folds
-/

lemma foldl_step_comm {α β : Type*} {f : β → α → β}
    (hrc : ∀ b a₁ a₂, f (f b a₁) a₂ = f (f b a₂) a₁) :
    ∀ (l : List α) (b : β) (a : α), f (l.foldl f b) a = l.foldl f (f b a)
  | [], _, _ => rfl
  | x :: xs, b, a => by
    simpa [List.foldl_cons, hrc] using foldl_step_comm hrc xs (f b x) a

lemma foldl_self_absorb {α β : Type*} {f : β → α → β}
    (hrc : ∀ b a₁ a₂, f (f b a₁) a₂ = f (f b a₂) a₁)
    (hid : ∀ b a, f (f b a) a = f b a) :
    ∀ (l : List α) (b : β), l.foldl f (l.foldl f b) = l.foldl f b
  | [], _ => rfl
  | x :: xs, b => by
    have h1 : f ((x :: xs).foldl f b) x = (x :: xs).foldl f b := by
      simp only [List.foldl_cons]
      rw [foldl_step_comm hrc, hid]
    calc (x :: xs).foldl f ((x :: xs).foldl f b)
        = xs.foldl f (f ((x :: xs).foldl f b) x) := by simp [List.foldl_cons]
      _ = xs.foldl f ((x :: xs).foldl f b) := by rw [h1]
      _ = xs.foldl f (xs.foldl f (f b x)) := by simp [List.foldl_cons]
      _ = xs.foldl f (f b x) := foldl_self_absorb hrc hid xs (f b x)
      _ = (x :: xs).foldl f b := by simp [List.foldl_cons]

lemma foldl_updateMinMax_split :
    ∀ (l : List FP) (a b : FP),
      l.foldl updateMinMax (a, b) = (l.foldl fpMinStep a, l.foldl fpMaxStep b)
  | [], _, _ => rfl
  | r :: rs, a, b => by
    simp only [List.foldl_cons, updateMinMax]
    exact foldl_updateMinMax_split rs _ _

lemma foldl_updateMinMax_nan :
    ∀ (l : List FP), (∀ r ∈ l, r = FP.nan) → ∀ acc : FP × FP,
      l.foldl updateMinMax acc = acc
  | [], _, _ => rfl
  | r :: rs, h, acc => by
    have hr : r = FP.nan := h r (List.mem_cons_self r rs)
    have hrs : ∀ x ∈ rs, x = FP.nan := fun x hx => h x (List.mem_cons_of_mem r hx)
    simp only [List.foldl_cons, hr, updateMinMax_nan]
    exact foldl_updateMinMax_nan rs hrs acc

/-!
## Helper lemmas: the loops as folds over pair lists
-/

lemma ratioInnerLoop_eq (fr : List ℚ × List ℚ) :
    ∀ (tos : List (List ℚ × List ℚ)) (acc : FP × FP),
      ratioInnerLoop fr tos acc =
        (tos.map fun pt => pairRatioOf fr pt).foldl updateMinMax acc
  | [], _ => rfl
  | pt :: tos, acc => by
    simp only [ratioInnerLoop, List.map_cons, List.foldl_cons]
    exact ratioInnerLoop_eq fr tos _

lemma pdistOuterLoop_eq :
    ∀ (pts : List (List ℚ × List ℚ)) (acc : FP × FP),
      pdistOuterLoop pts acc =
        ((pdistPairs pts).map fun pq => pairRatioOf pq.1 pq.2).foldl updateMinMax acc
  | [], _ => rfl
  | fr :: rest, acc => by
    simp only [pdistOuterLoop, pdistPairs, List.map_append, List.foldl_append,
      List.map_map, ratioInnerLoop_eq]
    rw [pdistOuterLoop_eq rest]
    rfl

lemma cdistOuterLoop_eq (tos : List (List ℚ × List ℚ)) :
    ∀ (frs : List (List ℚ × List ℚ)) (acc : FP × FP),
      cdistOuterLoop tos frs acc =
        ((allPairs frs tos).map fun pq => pairRatioOf pq.1 pq.2).foldl updateMinMax acc
  | [], _ => rfl
  | fr :: rest, acc => by
    simp only [cdistOuterLoop, allPairs, List.flatMap_cons, List.map_append,
      List.foldl_append, List.map_map, ratioInnerLoop_eq]
    rw [cdistOuterLoop_eq tos rest]
    rfl

/-!
## Helper lemmas: the distance accumulator
-/

lemma DOUBLE_dist_eq :
    ∀ (X Y : List ℚ) (d : ℚ), DOUBLE_dist X Y d = d + sqdistSum X Y
  | [], Y, d => by simp [DOUBLE_dist, sqdistSum]
  | x :: X, [], d => by simp [DOUBLE_dist, sqdistSum]
  | x :: X, y :: Y, d => by
    simp only [DOUBLE_dist, sqdistSum, List.zip_cons_cons, List.map_cons, List.sum_cons]
    rw [DOUBLE_dist_eq X Y]
    simp [sqdistSum]
    ring

lemma sqdistSum_nonneg : ∀ (X Y : List ℚ), 0 ≤ sqdistSum X Y := by
  intro X Y
  unfold sqdistSum
  induction (X.zip Y) with
  | nil => simp
  | cons c l ih =>
      simp only [List.map_cons, List.sum_cons]
      have := mul_self_nonneg (c.1 - c.2)
      linarith

lemma sqdistSum_self (X : List ℚ) : sqdistSum X X = 0 := by
  unfold sqdistSum
  induction X with
  | nil => rfl
  | cons x xs ih => simpa [List.zip_cons_cons] using ih

lemma sqdistSum_comm (X Y : List ℚ) : sqdistSum X Y = sqdistSum Y X := by
  induction X generalizing Y with
  | nil => cases Y <;> rfl
  | cons x xs ih =>
      cases Y with
      | nil => rfl
      | cons y ys =>
          simp only [sqdistSum, List.zip_cons_cons, List.map_cons, List.sum_cons]
          have := ih ys
          simp only [sqdistSum] at this
          rw [this]
          ring_nf

/-!
## Helper lemmas: indexed pairs and list indexing
-/

lemma map_getD_range {α : Type*} (d : α) :
    ∀ l : List α, (List.range l.length).map (fun i => l.getD i d) = l
  | [] => rfl
  | x :: xs => by
    rw [List.length_cons, List.range_succ_eq_map]
    simp only [List.map_cons, List.map_map]
    rw [List.getD_cons_zero]
    congr 1
    have := map_getD_range d xs
    calc List.map ((fun i => (x :: xs).getD i d) ∘ Nat.succ) (List.range xs.length)
        = List.map (fun i => xs.getD i d) (List.range xs.length) := by
          refine List.map_congr_left fun i _ => ?_
          simp [List.getD_cons_succ]
      _ = xs := map_getD_range d xs

lemma getD_map_range {α : Type*} (f : Nat → α) (d : α) {N p : Nat} (hp : p < N) :
    ((List.range N).map f).getD p d = f p := by
  have hlen : p < ((List.range N).map f).length := by simpa using hp
  rw [List.getD_eq_getElem _ _ hlen]
  simp

lemma indexPairs_succ (n : Nat) :
    indexPairs (n + 1) =
      ((List.range n).map fun k => (0, k + 1)) ++
        (indexPairs n).map fun p => (p.1 + 1, p.2 + 1) := by
  unfold indexPairs
  rw [List.range_succ_eq_map]
  rw [List.flatMap_cons]
  congr 1
  · simp [List.map_map]
  · rw [List.flatMap_map, List.map_flatMap]
    refine List.flatMap_congr ?_
    intro i _
    simp only [List.drop_succ_cons, List.map_drop, List.map_map]
    apply congrArg (List.drop (i + 1))
    exact List.map_congr_left fun j _ => rfl

lemma pdistPairs_eq_indexPairs {α : Type*} (d : α) :
    ∀ l : List α,
      pdistPairs l = (indexPairs l.length).map fun p => (l.getD p.1 d, l.getD p.2 d)
  | [] => rfl
  | x :: xs => by
    rw [List.length_cons, indexPairs_succ, List.map_append]
    simp only [pdistPairs]
    congr 1
    · rw [List.map_map]
      have : List.map ((fun p : Nat × Nat => ((x :: xs).getD p.1 d, (x :: xs).getD p.2 d))
              ∘ fun k => (0, k + 1)) (List.range xs.length)
          = List.map (fun k => (x, xs.getD k d)) (List.range xs.length) := by
        refine List.map_congr_left fun k _ => ?_
        simp [List.getD_cons_succ, List.getD_cons_zero]
      rw [this]
      have h3 : List.map (fun y => (x, y)) xs
          = List.map (fun y => (x, y)) (List.map (fun i => xs.getD i d) (List.range xs.length)) := by
        rw [map_getD_range]
      rw [h3, List.map_map]
      exact List.map_congr_left fun k _ => rfl
    · rw [List.map_map]
      have : List.map ((fun p : Nat × Nat => ((x :: xs).getD p.1 d, (x :: xs).getD p.2 d))
              ∘ fun p : Nat × Nat => (p.1 + 1, p.2 + 1)) (indexPairs xs.length)
          = List.map (fun p : Nat × Nat => (xs.getD p.1 d, xs.getD p.2 d)) (indexPairs xs.length) := by
        refine List.map_congr_left fun p _ => ?_
        simp [List.getD_cons_succ]
      rw [this, ← pdistPairs_eq_indexPairs d xs]

lemma indexPairs_length : ∀ D : Nat, (indexPairs D).length = D.choose 2
  | 0 => rfl
  | n + 1 => by
    rw [indexPairs_succ, List.length_append, List.length_map, List.length_map,
      List.length_range, indexPairs_length n]
    rw [Nat.choose_succ_succ]
    simp [Nat.choose_one_right, Nat.add_comm]

lemma zip_getD {α β : Type*} (d₁ : α) (d₂ : β) :
    ∀ (l₁ : List α) (l₂ : List β), l₁.length = l₂.length → ∀ i : Nat,
      (l₁.zip l₂).getD i (d₁, d₂) = (l₁.getD i d₁, l₂.getD i d₂)
  | [], [], _, i => by simp [List.getD]
  | [], b :: l₂, h, i => by simp at h
  | a :: l₁, [], h, i => by simp at h
  | a :: l₁, b :: l₂, h, 0 => by simp [List.zip_cons_cons]
  | a :: l₁, b :: l₂, h, i + 1 => by
    simp only [List.zip_cons_cons, List.getD_cons_succ]
    exact zip_getD d₁ d₂ l₁ l₂ (by simpa using h) i

lemma zip_self_eq_map {α : Type*} : ∀ l : List α, l.zip l = l.map fun x => (x, x)
  | [] => rfl
  | x :: xs => by simp [List.zip_cons_cons, zip_self_eq_map xs]

lemma pdistPairs_map {α β : Type*} (f : α → β) :
    ∀ l : List α, pdistPairs (l.map f) = (pdistPairs l).map fun pq => (f pq.1, f pq.2)
  | [] => rfl
  | x :: xs => by
    simp only [List.map_cons, pdistPairs, List.map_append, List.map_map,
      pdistPairs_map f xs]
    have h1 : List.map ((fun y => (f x, y)) ∘ f) xs
        = List.map ((fun pq : α × α => (f pq.1, f pq.2)) ∘ fun y => (x, y)) xs :=
      List.map_congr_left fun y _ => rfl
    rw [h1]

/-!
## Helper lemmas: the cross product as diagonal + ordered pairs + swapped pairs
-/

lemma allPairs_cons_right {α : Type*} (x : α) (ys : List α) :
    ∀ l : List α,
      (↑(allPairs l (x :: ys)) : Multiset (α × α)) =
        ↑(l.map fun y => (y, x)) + ↑(allPairs l ys)
  | [] => rfl
  | z :: l => by
    have h1 : allPairs (z :: l) (x :: ys)
        = ((z, x) :: ys.map fun y => (z, y)) ++ allPairs l (x :: ys) := by
      simp [allPairs, List.flatMap_cons]
    have h2 : allPairs (z :: l) ys
        = (ys.map fun y => (z, y)) ++ allPairs l ys := by
      simp [allPairs, List.flatMap_cons]
    have hrec := allPairs_cons_right x ys l
    rw [h1, h2, List.map_cons]
    simp only [← Multiset.cons_coe, ← Multiset.coe_add, ← Multiset.singleton_add]
    rw [hrec]
    abel

lemma allPairs_self_multiset {α : Type*} :
    ∀ l : List α,
      (↑(allPairs l l) : Multiset (α × α)) =
        ↑(diagPairs l) + ↑(pdistPairs l) + ↑((pdistPairs l).map Prod.swap)
  | [] => rfl
  | x :: l => by
    have hsplit : allPairs (x :: l) (x :: l)
        = ((x, x) :: l.map fun y => (x, y)) ++ allPairs l (x :: l) := by
      simp [allPairs, List.flatMap_cons]
    have hright : (↑(allPairs l (x :: l)) : Multiset (α × α))
        = ↑(l.map fun y => (y, x)) + ↑(allPairs l l) := allPairs_cons_right x l l
    have hIH := allPairs_self_multiset l
    have hswap : (List.map Prod.swap (List.map (fun y => (x, y)) l))
        = l.map fun y => (y, x) := by
      rw [List.map_map]
      exact List.map_congr_left fun y _ => rfl
    have hdiag : diagPairs (x :: l) = (x, x) :: diagPairs l := rfl
    have hpd : pdistPairs (x :: l) = (l.map fun y => (x, y)) ++ pdistPairs l := rfl
    rw [hsplit, hdiag, hpd, List.map_append, hswap]
    simp only [← Multiset.cons_coe, ← Multiset.coe_add, ← Multiset.singleton_add]
    rw [hright, hIH]
    abel

lemma pdistPairs_pairwise {α : Type*} {R : α → α → Prop} :
    ∀ {l : List α}, l.Pairwise R → ∀ pq ∈ pdistPairs l, R pq.1 pq.2
  | [], _, pq, hpq => by simp [pdistPairs] at hpq
  | x :: xs, h, pq, hpq => by
    rw [List.pairwise_cons] at h
    simp only [pdistPairs, List.mem_append, List.mem_map] at hpq
    rcases hpq with ⟨y, hy, rfl⟩ | hpq
    · exact h.1 y hy
    · exact pdistPairs_pairwise h.2 pq hpq

lemma sqdistSum_eq_zero_iff :
    ∀ {X Y : List ℚ}, X.length = Y.length → (sqdistSum X Y = 0 ↔ X = Y)
  | [], [], _ => by simp [sqdistSum]
  | [], y :: Y, h => by simp at h
  | x :: X, [], h => by simp at h
  | x :: X, y :: Y, h => by
    have hlen : X.length = Y.length := by simpa using h
    have hrec := sqdistSum_eq_zero_iff hlen
    have hhead : sqdistSum (x :: X) (y :: Y) = (x - y) * (x - y) + sqdistSum X Y := by
      simp [sqdistSum, List.zip_cons_cons]
    rw [hhead]
    constructor
    · intro h0
      have h1 : 0 ≤ (x - y) * (x - y) := mul_self_nonneg _
      have h2 : 0 ≤ sqdistSum X Y := sqdistSum_nonneg X Y
      have hx : (x - y) * (x - y) = 0 := by linarith
      have hX : sqdistSum X Y = 0 := by linarith
      have : x = y := by
        have := mul_self_eq_zero.mp hx
        linarith [sub_eq_zero.mp this]
      rw [this, hrec.mp hX]
    · intro he
      injection he with h1 h2
      subst h1
      subst h2
      simp [sqdistSum_self]

lemma foldl_add_range (f : Nat → ℚ) :
    ∀ (N : Nat) (a : ℚ),
      (List.range N).foldl (fun z n => z + f n) a = a + ∑ n ∈ Finset.range N, f n
  | 0, a => by simp
  | N + 1, a => by
    rw [List.range_succ, List.foldl_append, foldl_add_range f N a, Finset.sum_range_succ]
    simp [add_assoc]

lemma foldl_add_squares :
    ∀ (X : List ℚ) (a : ℚ),
      X.foldl (fun z x => z + x * x) a = a + (X.map fun x => x * x).sum
  | [], a => by simp
  | x :: X, a => by
    simp only [List.foldl_cons, List.map_cons, List.sum_cons]
    rw [foldl_add_squares X (a + x * x)]
    ring

/-!
## Helper lemmas: ratio values and degenerate loops
-/

lemma cdistOuterLoop_nil_tos :
    ∀ (frs : List (List ℚ × List ℚ)) (acc : FP × FP), cdistOuterLoop [] frs acc = acc
  | [], _ => rfl
  | fr :: rest, acc => cdistOuterLoop_nil_tos rest acc

lemma pairRatioOf_comm (a b : List ℚ × List ℚ) : pairRatioOf b a = pairRatioOf a b := by
  simp only [pairRatioOf, DOUBLE_dist_eq, zero_add]
  rw [sqdistSum_comm a.1 b.1, sqdistSum_comm a.2 b.2]

lemma pairRatioOf_self (a : List ℚ × List ℚ) : pairRatioOf a a = FP.nan := by
  simp [pairRatioOf, DOUBLE_dist_eq, sqdistSum_self, fpDiv]

lemma foldl_updateMinMax_all_one :
    ∀ rs : List FP, (∀ r ∈ rs, r = FP.fin 1) →
      rs.foldl updateMinMax (FP.fin 1, FP.fin 1) = (FP.fin 1, FP.fin 1)
  | [], _ => rfl
  | r :: rs, h => by
    have hr : r = FP.fin 1 := h r (List.mem_cons_self r rs)
    have hstep : updateMinMax (FP.fin 1, FP.fin 1) (FP.fin 1) = (FP.fin 1, FP.fin 1) := by
      decide
    rw [List.foldl_cons, hr, hstep]
    exact foldl_updateMinMax_all_one rs fun x hx => h x (List.mem_cons_of_mem r hx)

lemma identMat_entry {N n : Nat} (p : Nat) (hn : n < N) :
    entry (identMat N) n p = if n = p then 1 else 0 := by
  unfold entry identMat
  rw [getD_map_range _ _ hn]
  by_cases hp : p < N
  · rw [getD_map_range _ _ hp]
  · have hle : N ≤ p := Nat.le_of_not_lt hp
    have hlen : ((List.range N).map fun j => if n = j then (1 : ℚ) else 0).length ≤ p := by
      simpa using hle
    rw [List.getD_eq_default _ _ hlen]
    have : n ≠ p := by omega
    simp [this]

/-!
## Helper lemmas: the odometer model
-/

lemma odometerVisits_length : ∀ shape : List Nat, (odometerVisits shape).length = shape.prod
  | [] => rfl
  | s :: rest => by
    have h1 : odometerVisits (s :: rest)
        = (List.range s).flatMap fun i => (odometerVisits rest).map fun idx => i :: idx := rfl
    rw [h1, List.length_flatMap]
    have h2 : (List.map (List.length ∘ fun i => List.map (fun idx => i :: idx) (odometerVisits rest))
          (List.range s))
        = (List.range s).map fun _ => (odometerVisits rest).length := by
      simp [Function.comp_def]
    rw [h2, List.map_const', List.sum_replicate, smul_eq_mul, List.length_range,
      odometerVisits_length rest, List.prod_cons]

lemma odometerVisits_zero : ∀ {shape : List Nat}, 0 ∈ shape → odometerVisits shape = []
  | [], h => by simp at h
  | s :: rest, h => by
    rcases List.mem_cons.mp h with h0 | h0
    · subst h0
      simp [odometerVisits]
    · simp [odometerVisits, odometerVisits_zero h0]

lemma odometerVisits_mem :
    ∀ (shape : List Nat) (idx : List Nat),
      idx ∈ odometerVisits shape ↔ List.Forall₂ (· < ·) idx shape
  | [], idx => by
    simp only [odometerVisits, List.mem_singleton]
    constructor
    · rintro rfl; exact List.Forall₂.nil
    · intro h; cases h; rfl
  | s :: rest, idx => by
    simp only [odometerVisits, List.mem_flatMap, List.mem_map, List.mem_range]
    constructor
    · rintro ⟨i, hi, t, ht, rfl⟩
      exact List.Forall₂.cons hi ((odometerVisits_mem rest t).mp ht)
    · intro h
      cases h with
      | cons hab hrest =>
          exact ⟨_, hab, _, (odometerVisits_mem rest _).mpr hrest, rfl⟩

lemma odometerVisits_nodup : ∀ shape : List Nat, (odometerVisits shape).Nodup
  | [] => by simp [odometerVisits]
  | s :: rest => by
    simp only [odometerVisits]
    rw [List.nodup_flatMap]
    constructor
    · intro i _
      exact (odometerVisits_nodup rest).map fun a b h => by injection h
    · have hne : (List.range s).Pairwise (· ≠ ·) := (List.nodup_range s)
      refine hne.imp ?_
      intro i j hij
      intro x hx hy
      simp only [List.mem_map] at hx hy
      rcases hx with ⟨t, _, rfl⟩
      rcases hy with ⟨t', _, heq⟩
      exact hij (by injection heq.symm)

lemma pairwise_flatMap_of {α β : Type*} {R : β → β → Prop} {S : α → α → Prop}
    {f : α → List β} :
    ∀ {l : List α}, l.Pairwise S → (∀ a ∈ l, (f a).Pairwise R) →
      (∀ a b, S a b → ∀ x ∈ f a, ∀ y ∈ f b, R x y) →
      (l.flatMap f).Pairwise R
  | [], _, _, _ => by simp
  | a :: l, hl, hin, hcross => by
    rw [List.pairwise_cons] at hl
    rw [List.flatMap_cons, List.pairwise_append]
    refine ⟨hin a (List.mem_cons_self a l), pairwise_flatMap_of hl.2
      (fun b hb => hin b (List.mem_cons_of_mem a hb)) hcross, ?_⟩
    intro x hx y hy
    rw [List.mem_flatMap] at hy
    rcases hy with ⟨b, hb, hyb⟩
    exact hcross a b (hl.1 b hb) x hx y hyb

lemma odometerVisits_sorted :
    ∀ shape : List Nat, (odometerVisits shape).Pairwise (List.Lex (· < ·))
  | [] => by simp [odometerVisits]
  | s :: rest => by
    simp only [odometerVisits]
    refine pairwise_flatMap_of (List.pairwise_lt_range s) ?_ ?_
    · intro i _
      rw [List.pairwise_map]
      exact (odometerVisits_sorted rest).imp fun h => List.Lex.cons h
    · intro i j hij x hx y hy
      simp only [List.mem_map] at hx hy
      rcases hx with ⟨t, _, rfl⟩
      rcases hy with ⟨t', _, rfl⟩
      exact List.Lex.rel hij

/-!
## Claim theorems
-/

/-- C10: `DOUBLE_dist` adds the sum of squared coordinate differences into
the caller-supplied accumulator (so the result is the squared distance
itself exactly when the accumulator starts at zero, which is how the ratio
kernels invoke it: their per-pair ratio is the quotient of two
zero-initialised `DOUBLE_dist` accumulations). -/
theorem DOUBLE_dist_accumulates (X Y : List ℚ) (d : ℚ) (fr pt : List ℚ × List ℚ) :
    DOUBLE_dist X Y d = d + ((X.zip Y).map fun c => (c.1 - c.2) * (c.1 - c.2)).sum ∧
    pairRatioOf fr pt =
      fpDiv (FP.fin (sqdistSum fr.1 pt.1)) (FP.fin (sqdistSum fr.2 pt.2)) := by
  constructor
  · exact DOUBLE_dist_eq X Y d
  · simp [pairRatioOf, DOUBLE_dist_eq]

/-- C7: `DOUBLE_norm` returns the square root of the sum of the squares of
the elements, and the empty vector yields exactly `0`. -/
theorem DOUBLE_norm_spec (X : List ℚ) :
    DOUBLE_norm X = fpSqrt (FP.fin ((X.map fun x => x * x).sum)) ∧
    DOUBLE_norm [] = FP.fin 0 := by
  constructor
  · simp [DOUBLE_norm, foldl_add_squares]
  · decide

/-- C2: every output cell `(m, p)` of `DOUBLE_matmul` holds the
accumulation that starts from zero and adds `X[m,n] * Y[n,p]` for
`n = 0, …, N-1` in that fixed order, which equals the mathematical sum
`Σ_n X[m,n]·Y[n,p]`. -/
theorem DOUBLE_matmul_spec (M N P : Nat) (X Y : List (List ℚ)) (m p : Nat)
    (hm : m < M) (hp : p < P) :
    entry (DOUBLE_matmul M N P X Y) m p
      = (List.range N).foldl (fun z n => z + entry X m n * entry Y n p) 0 ∧
    (List.range N).foldl (fun z n => z + entry X m n * entry Y n p) 0
      = ∑ n ∈ Finset.range N, entry X m n * entry Y n p := by
  constructor
  · unfold DOUBLE_matmul entry
    rw [getD_map_range _ _ hm, getD_map_range _ _ hp]
  · rw [foldl_add_range _ N 0, zero_add]

/-- Closed-instance witness for C2. -/
theorem DOUBLE_matmul_spec_witness :
    entry (DOUBLE_matmul 1 2 1 [[1, 2]] [[3], [4]]) 0 0
        = (List.range 2).foldl (fun z n => z + entry [[1, 2]] 0 n * entry [[3], [4]] n 0) 0 ∧
      (List.range 2).foldl (fun z n => z + entry [[1, 2]] 0 n * entry [[3], [4]] n 0) 0
        = ∑ n ∈ Finset.range 2, entry [[1, 2]] 0 n * entry [[3], [4]] n 0 :=
  DOUBLE_matmul_spec 1 2 1 [[1, 2]] [[3], [4]] 0 0 (by decide) (by decide)

/-- C4: with fewer than two points the pair loops of `DOUBLE_pdist_ratio`
run zero iterations, so the outputs are `(sqrt(inf), sqrt(0)) = (+inf, 0)`;
`DOUBLE_cdist_ratio` returns the same defaults when the from-set or the
to-set is empty. -/
theorem ratio_kernels_degenerate (D : Nat) (num den A B C E : List (List ℚ))
    (hD : D < 2) (hnum : num.length = D) (hden : den.length = D)
    (hAB : A.length = 0 ∨ B.length = 0) :
    DOUBLE_pdist_ratio num den = (FP.inf, FP.fin 0) ∧
    DOUBLE_cdist_ratio A B C E = (FP.inf, FP.fin 0) := by
  have hsq0 : fpSqrt (FP.fin 0) = FP.fin 0 := by decide
  constructor
  · have hzip : (num.zip den).length < 2 := by
      rw [List.length_zip, hnum, hden]
      simpa using hD
    rcases hz : num.zip den with _ | ⟨x, rest⟩
    · simp [DOUBLE_pdist_ratio, hz, pdistOuterLoop, fpSqrt, hsq0]
    · rcases rest with _ | ⟨y, rest'⟩
      · simp [DOUBLE_pdist_ratio, hz, pdistOuterLoop, ratioInnerLoop, fpSqrt, hsq0]
      · rw [hz] at hzip
        simp only [List.length_cons] at hzip
        omega
  · rcases hAB with hA | hB
    · have : A = [] := List.length_eq_zero.mp hA
      subst this
      simp [DOUBLE_cdist_ratio, cdistOuterLoop, fpSqrt, hsq0]
    · have : B = [] := List.length_eq_zero.mp hB
      subst this
      simp [DOUBLE_cdist_ratio, cdistOuterLoop_nil_tos, fpSqrt, hsq0]

/-- Closed-instance witness for C4. -/
theorem ratio_kernels_degenerate_witness :
    DOUBLE_pdist_ratio [[1]] [[2]] = (FP.inf, FP.fin 0) ∧
    DOUBLE_cdist_ratio [] [[1]] [] [[1]] = (FP.inf, FP.fin 0) :=
  ratio_kernels_degenerate 1 [[1]] [[2]] [] [[1]] [] [[1]]
    (by decide) (by decide) (by decide) (Or.inl (by decide))

/-- C9: the broadcasting driver performs exactly one kernel-body
invocation per element of the batch index space, so the invocation count
is the product of the batch-axis sizes; when some axis has size zero there
are no invocations and the machine state — including all output memory —
is left untouched. -/
theorem outerLoopDriver_count {σ : Type} (k : List Nat → σ → σ) (s : σ)
    (shape : List Nat) :
    (odometerVisits shape).length = shape.prod ∧
    (0 ∈ shape →
      odometerVisits shape = [] ∧ outerLoopDriver shape k s = s) := by
  refine ⟨odometerVisits_length shape, fun h0 => ?_⟩
  have hz := odometerVisits_zero h0
  exact ⟨hz, by simp [outerLoopDriver, hz]⟩

/-- Closed-instance witness for C9. -/
theorem outerLoopDriver_count_witness :
    (odometerVisits [2, 0, 3]).length = [2, 0, 3].prod ∧
    odometerVisits [2, 0, 3] = [] ∧
    outerLoopDriver [2, 0, 3] (fun _ n => n + 1) (0 : Nat) = 0 := by
  have h := outerLoopDriver_count (fun _ n => n + 1) (0 : Nat) [2, 0, 3]
  have h2 := h.2 (by decide)
  exact ⟨h.1, h2.1, h2.2⟩

/-- C8: the driver visits the batch index combinations in row-major,
last-axis-fastest order — concretely, `(2,3)` is visited in the order
`(0,0),(0,1),(0,2),(1,0),(1,1),(1,2)` — each combination appearing
exactly once (the visit list has no duplicates, is strictly increasing in
lexicographic order, and contains precisely the index tuples that are
pointwise below the shape). -/
theorem odometerVisits_spec :
    odometerVisits [2, 3] = [[0, 0], [0, 1], [0, 2], [1, 0], [1, 1], [1, 2]] ∧
    ∀ shape : List Nat,
      (odometerVisits shape).Nodup ∧
      (odometerVisits shape).Pairwise (List.Lex (· < ·)) ∧
      ∀ idx, idx ∈ odometerVisits shape ↔ List.Forall₂ (· < ·) idx shape := by
  refine ⟨by decide, fun shape => ⟨odometerVisits_nodup shape,
    odometerVisits_sorted shape, fun idx => odometerVisits_mem shape idx⟩⟩

lemma DOUBLE_pdist_ratio_fold (num den : List (List ℚ)) :
    DOUBLE_pdist_ratio num den =
      (fpSqrt ((((pdistPairs (num.zip den)).map fun pq => pairRatioOf pq.1 pq.2).foldl
          updateMinMax (FP.inf, FP.fin 0)).1),
       fpSqrt ((((pdistPairs (num.zip den)).map fun pq => pairRatioOf pq.1 pq.2).foldl
          updateMinMax (FP.inf, FP.fin 0)).2)) := by
  simp only [DOUBLE_pdist_ratio]
  rw [pdistOuterLoop_eq]

lemma DOUBLE_cdist_ratio_fold (numFr numTo denFr denTo : List (List ℚ)) :
    DOUBLE_cdist_ratio numFr numTo denFr denTo =
      (fpSqrt ((((allPairs (numFr.zip denFr) (numTo.zip denTo)).map
          fun pq => pairRatioOf pq.1 pq.2).foldl updateMinMax (FP.inf, FP.fin 0)).1),
       fpSqrt ((((allPairs (numFr.zip denFr) (numTo.zip denTo)).map
          fun pq => pairRatioOf pq.1 pq.2).foldl updateMinMax (FP.inf, FP.fin 0)).2)) := by
  simp only [DOUBLE_cdist_ratio]
  rw [cdistOuterLoop_eq]

lemma foldl_updateMinMax_ones (rl : List FP) (hne : rl ≠ [])
    (hall : ∀ r ∈ rl, r = FP.fin 1) :
    rl.foldl updateMinMax (FP.inf, FP.fin 0) = (FP.fin 1, FP.fin 1) := by
  rcases rl with _ | ⟨r, rs⟩
  · exact absurd rfl hne
  · have hr := hall r (List.mem_cons_self r rs)
    have hstep : updateMinMax (FP.inf, FP.fin 0) (FP.fin 1) = (FP.fin 1, FP.fin 1) := by
      decide
    rw [List.foldl_cons, hr, hstep]
    exact foldl_updateMinMax_all_one rs fun x hx => hall x (List.mem_cons_of_mem r hx)

/-- C5 fails as stated: with `D = 2` duplicated points (numerator and
denominator sets both `[[0], [0]]`, so `D ≥ 2` and `M = N = 1`), every pair
ratio is `0/0 = nan`, neither comparison fires, and the kernel returns
`(+inf, 0)`, not `(1, 1)`. -/
theorem pdist_ratio_identical_counterexample :
    DOUBLE_pdist_ratio [[0], [0]] [[0], [0]] = (FP.inf, FP.fin 0) ∧
    ¬ DOUBLE_pdist_ratio [[0], [0]] [[0], [0]] = (FP.fin 1, FP.fin 1) := by
  have h1 : DOUBLE_pdist_ratio [[0], [0]] [[0], [0]] = (FP.inf, FP.fin 0) := by
    rw [DOUBLE_pdist_ratio_fold]
    have hmapped : ((pdistPairs (([[0], [0]] : List (List ℚ)).zip [[0], [0]])).map
        fun pq => pairRatioOf pq.1 pq.2) = [FP.nan] := by
      simp [List.zip_cons_cons, pdistPairs, pairRatioOf_self]
    rw [hmapped, foldl_updateMinMax_nan _ (by simp) _]
    decide
  exact ⟨h1, by rw [h1]; decide⟩

/-- C5, amended: for `D ≥ 2` **pairwise-distinct** points of a common
dimension, `DOUBLE_pdist_ratio` on identical numerator and denominator
point sets returns `drmin = drmax = 1`. -/
theorem pdist_ratio_identical_amended (M : Nat) (num : List (List ℚ))
    (hD : 2 ≤ num.length) (hM : ∀ r ∈ num, r.length = M)
    (hdist : num.Pairwise (· ≠ ·)) :
    DOUBLE_pdist_ratio num num = (FP.fin 1, FP.fin 1) := by
  have hpair : num.Pairwise fun a b => a ≠ b ∧ a.length = b.length := by
    refine List.Pairwise.and hdist ?_
    refine List.pairwise_of_forall_mem_list ?_
    intro a ha b hb
    rw [hM a ha, hM b hb]
  have hrat : num.Pairwise fun a b => pairRatioOf (a, a) (b, b) = FP.fin 1 := by
    refine hpair.imp ?_
    rintro a b ⟨hne, hlen⟩
    have hd0 : sqdistSum a b ≠ 0 := fun h => hne ((sqdistSum_eq_zero_iff hlen).mp h)
    simp [pairRatioOf, DOUBLE_dist_eq, fpDiv, hd0, div_self hd0]
  have hmap : (num.zip num).Pairwise fun a b => pairRatioOf a b = FP.fin 1 := by
    rw [zip_self_eq_map num, List.pairwise_map]
    exact hrat
  have hone : ∀ r ∈ (pdistPairs (num.zip num)).map fun pq => pairRatioOf pq.1 pq.2,
      r = FP.fin 1 := by
    intro r hr
    rw [List.mem_map] at hr
    obtain ⟨pq, hpq, rfl⟩ := hr
    exact pdistPairs_pairwise hmap pq hpq
  have hzlen : (num.zip num).length = num.length := by
    rw [List.length_zip, Nat.min_self]
  have hge : 2 ≤ (num.zip num).length := by
    rw [hzlen]
    exact hD
  have hne2 : ((pdistPairs (num.zip num)).map fun pq => pairRatioOf pq.1 pq.2) ≠ [] := by
    rcases hz : num.zip num with _ | ⟨x, rest⟩
    · rw [hz] at hge
      simp at hge
    · rcases hrest2 : rest with _ | ⟨y, tail⟩
      · rw [hz, hrest2] at hge
        simp at hge
      · subst hrest2
        simp [pdistPairs]
  rw [DOUBLE_pdist_ratio_fold, foldl_updateMinMax_ones _ hne2 hone]
  decide

/-- Closed-instance witness for the amended C5. -/
theorem pdist_ratio_identical_amended_witness :
    DOUBLE_pdist_ratio [[0], [1]] [[0], [1]] = (FP.fin 1, FP.fin 1) :=
  pdist_ratio_identical_amended 1 [[0], [1]] (by decide) (by decide) (by decide)

/-- C6: multiplying any well-formed `M × N` matrix by the `N × N` identity
matrix with `DOUBLE_matmul` reproduces the matrix exactly, even though each
output cell still accumulates `N` products. -/
theorem DOUBLE_matmul_identity (M N : Nat) (X : List (List ℚ))
    (hlen : X.length = M) (hrow : ∀ r ∈ X, r.length = N) :
    DOUBLE_matmul M N N X (identMat N) = X := by
  have hXrow : ∀ m, m < M → (X.getD m []).length = N := by
    intro m hm
    have hm' : m < X.length := by omega
    rw [List.getD_eq_getElem X [] hm']
    exact hrow _ (List.getElem_mem hm')
  unfold DOUBLE_matmul
  conv_rhs => rw [← map_getD_range ([] : List ℚ) X, hlen]
  refine List.map_congr_left ?_
  intro m hm
  have hm' : m < M := List.mem_range.mp hm
  conv_rhs => rw [← map_getD_range (0 : ℚ) (X.getD m []), hXrow m hm']
  refine List.map_congr_left ?_
  intro p hp
  have hp' : p < N := List.mem_range.mp hp
  rw [foldl_add_range _ N 0, zero_add]
  have hterm : ∀ n ∈ Finset.range N,
      entry X m n * entry (identMat N) n p = if n = p then entry X m n else 0 := by
    intro n hn
    rw [identMat_entry p (Finset.mem_range.mp hn)]
    split_ifs <;> ring
  rw [Finset.sum_congr rfl hterm,
    Finset.sum_ite_eq' (Finset.range N) p fun n => entry X m n]
  simp [Finset.mem_range.mpr hp', entry]

/-- Closed-instance witness for C6. -/
theorem DOUBLE_matmul_identity_witness :
    DOUBLE_matmul 2 2 2 [[1, 2], [3, 4]] (identMat 2) = [[1, 2], [3, 4]] :=
  DOUBLE_matmul_identity 2 2 [[1, 2], [3, 4]] (by decide) (by decide)

/-- C1: `DOUBLE_pdist_ratio` computes, for every unordered pair `i < j`
of the `D` points, the ratio of the squared numerator-space distance to
the squared denominator-space distance, folds the running minimum
(started at `+inf`) and maximum (started at `0`) of those `C(D,2)`
ratios in loop order, and outputs the square roots, min first, max
second — distance ratios, not squared-distance ratios. -/
theorem pdist_ratio_full_spec (D : Nat) (num den : List (List ℚ))
    (hnum : num.length = D) (hden : den.length = D) :
    DOUBLE_pdist_ratio num den =
      (fpSqrt ((ratioList num den D).foldl fpMinStep FP.inf),
       fpSqrt ((ratioList num den D).foldl fpMaxStep (FP.fin 0))) ∧
    (ratioList num den D).length = D.choose 2 := by
  have hlen2 : (ratioList num den D).length = D.choose 2 := by
    rw [ratioList, List.length_map, indexPairs_length]
  refine ⟨?_, hlen2⟩
  have hzl : (num.zip den).length = D := by
    rw [List.length_zip, hnum, hden, Nat.min_self]
  have hmapped : ((pdistPairs (num.zip den)).map fun pq => pairRatioOf pq.1 pq.2)
      = ratioList num den D := by
    rw [pdistPairs_eq_indexPairs (([], []) : List ℚ × List ℚ), hzl, List.map_map, ratioList]
    refine List.map_congr_left ?_
    intro p _
    simp only [Function.comp_apply]
    rw [zip_getD [] [] num den (hnum.trans hden.symm) p.1,
        zip_getD [] [] num den (hnum.trans hden.symm) p.2]
    simp [pairRatioOf, ratioAt, DOUBLE_dist_eq]
  rw [DOUBLE_pdist_ratio_fold, hmapped, foldl_updateMinMax_split]

/-- Closed-instance witness for C1. -/
theorem pdist_ratio_full_spec_witness :
    DOUBLE_pdist_ratio [[0], [3]] [[0], [1]] =
      (fpSqrt ((ratioList [[0], [3]] [[0], [1]] 2).foldl fpMinStep FP.inf),
       fpSqrt ((ratioList [[0], [3]] [[0], [1]] 2).foldl fpMaxStep (FP.fin 0))) ∧
    (ratioList [[0], [3]] [[0], [1]] 2).length = Nat.choose 2 2 :=
  pdist_ratio_full_spec 2 [[0], [3]] [[0], [1]] (by decide) (by decide)

/-- C3: `DOUBLE_cdist_ratio` iterates the full cross product with no
`i < j` restriction and no diagonal exclusion; on identical from- and
to-sets each self-pair's ratio is `0/0 = nan`, which per the IEEE rules
makes both comparisons false and leaves the running extrema unchanged, so
the kernel returns exactly the `DOUBLE_pdist_ratio` extrema of the set. -/
theorem cdist_ratio_self_eq_pdist (num den : List (List ℚ)) :
    DOUBLE_cdist_ratio num num den den = DOUBLE_pdist_ratio num den ∧
    ∀ pt ∈ num.zip den, pairRatioOf pt pt = FP.nan := by
  refine ⟨?_, fun pt _ => pairRatioOf_self pt⟩
  rw [DOUBLE_cdist_ratio_fold, DOUBLE_pdist_ratio_fold]
  have hperm : List.Perm (allPairs (num.zip den) (num.zip den))
      (diagPairs (num.zip den) ++
        (pdistPairs (num.zip den) ++ (pdistPairs (num.zip den)).map Prod.swap)) := by
    rw [← Multiset.coe_eq_coe]
    simp only [← Multiset.coe_add]
    exact (allPairs_self_multiset (num.zip den)).trans (add_assoc _ _ _)
  haveI : RightCommutative updateMinMax := ⟨updateMinMax_right_comm⟩
  have hfold :
      ((allPairs (num.zip den) (num.zip den)).map fun pq => pairRatioOf pq.1 pq.2).foldl
          updateMinMax (FP.inf, FP.fin 0)
        = ((diagPairs (num.zip den) ++
              (pdistPairs (num.zip den) ++ (pdistPairs (num.zip den)).map Prod.swap)).map
            fun pq => pairRatioOf pq.1 pq.2).foldl updateMinMax (FP.inf, FP.fin 0) :=
    (hperm.map _).foldl_eq _
  have hnan : ∀ r ∈ (diagPairs (num.zip den)).map fun pq => pairRatioOf pq.1 pq.2,
      r = FP.nan := by
    intro r hr
    rw [List.mem_map] at hr
    obtain ⟨pq, hpq, rfl⟩ := hr
    rw [diagPairs, List.mem_map] at hpq
    obtain ⟨x, _, rfl⟩ := hpq
    exact pairRatioOf_self x
  have hswapmap : ((pdistPairs (num.zip den)).map Prod.swap).map
        (fun pq => pairRatioOf pq.1 pq.2)
      = (pdistPairs (num.zip den)).map fun pq => pairRatioOf pq.1 pq.2 := by
    rw [List.map_map]
    exact List.map_congr_left fun pq _ => pairRatioOf_comm pq.1 pq.2
  rw [hfold, List.map_append, List.map_append, List.foldl_append, List.foldl_append,
    foldl_updateMinMax_nan _ hnan, hswapmap,
    foldl_self_absorb updateMinMax_right_comm updateMinMax_idem]

/-- Closed-instance witness for C3. -/
theorem cdist_ratio_self_eq_pdist_witness :
    DOUBLE_cdist_ratio [[0], [3]] [[0], [3]] [[0], [1]] [[0], [1]]
        = DOUBLE_pdist_ratio [[0], [3]] [[0], [1]] ∧
      pairRatioOf ([0], [0]) ([0], [0]) = FP.nan := by
  have h := cdist_ratio_self_eq_pdist [[0], [3]] [[0], [1]]
  exact ⟨h.1, h.2 ([0], [0]) (by decide)⟩
